import Mathlib

/-!
Verification of the similar-articles plugin core
(`similar_articles.py`): TF-IDF vectorization over binary tag presence,
pairwise cosine similarity, and per-document top-K selection.

The Python source is shallowly embedded below:

* an article is its identity plus its set of tag names
  (`article.metadata.get("tags", [])`);
* `global_idf` / `tfidf` follow `add_similar_articles` lines 95-100 and
  `add_tfidf_to_articles`;
* `dot_product`, `compute_cosine` follow the memoized functions at the
  bottom of the file (memoization of pure functions is semantically
  transparent, so the cache itself is not modelled; the `id()`-based
  canonicalization of the argument order is modelled by an arbitrary
  boolean oracle `ord`);
* `build_similarity_matrix` builds a dict-of-Counter structure; Python
  dicts and Counters preserve insertion order and, on assignment, update
  an existing key in place, which is exactly what the association-list
  operations `counterSet` / `matrixSet` do;
* `Counter.most_common(n)` is documented as equivalent to
  `sorted(items, key=score, reverse=True)[:n]` with a stable sort, which
  is what `sortDesc` (a stable descending insertion sort) followed by
  `take` computes;
* the final loop of `add_similar_articles` keeps, for each row of the
  matrix, the articles among the `max_count` most similar whose score is
  strictly above `min_score`, and attaches the resulting tuple only when
  it is non-empty.
-/

namespace SimilarArticles

/-- An article: an identity (standing for the Python object identity /
slug) together with the list of its tag names. -/
structure Article where
  ident : Nat
  tags : List String
deriving DecidableEq

/-! ### Vectorizer (`add_similar_articles` lines 95-100, `add_tfidf_to_articles`) -/

/-- `global_idf`: for each `(tag, frequency)` entry of the corpus tag
table, the pair `(tag, log10(numArticles / frequency))`, in table order.
Mirrors the `OrderedDict` comprehension of the source. -/
noncomputable def globalIdf (tagFreqs : List (String × Nat)) (numArticles : Nat) :
    List (String × ℝ) :=
  tagFreqs.map (fun p => (p.1, Real.logb 10 ((numArticles : ℝ) / (p.2 : ℝ))))

/-- The tfidf vector of one article: one coordinate per entry of the
global idf vector, `idf * 1` when the article carries the tag, `0`
otherwise (the `tf` binarization of the source). -/
noncomputable def tfidfVec (gIdf : List (String × ℝ)) (a : Article) : List ℝ :=
  gIdf.map (fun p => if p.1 ∈ a.tags then p.2 * 1 else 0)

/-- `add_tfidf_to_articles`: attach to every article its tfidf vector. -/
noncomputable def addTfidfToArticles (articles : List Article)
    (gIdf : List (String × ℝ)) : List (Article × List ℝ) :=
  articles.map (fun a => (a, tfidfVec gIdf a))

/-! ### Similarity engine (`dot_product`, `compute_cosine`,
`build_similarity_matrix`) -/

/-- `dot_product`: `sum(map(op.mul, v1, v2))`; Python's `map` over two
iterables stops at the shorter one, i.e. `zipWith`. -/
noncomputable def dotProduct (v₁ v₂ : List ℝ) : ℝ :=
  (List.zipWith (· * ·) v₁ v₂).sum

/-- `compute_cosine`: `0` when the smaller of the two squared norms is
`0`, otherwise `prod / (norm_current * norm_adverse) ** 0.5`; the squared
norms are non-negative, so `** 0.5` is `Real.sqrt`. -/
noncomputable def computeCosine (tfidfCurrent tfidfAdverse : List ℝ) : ℝ :=
  let normCurrent := dotProduct tfidfCurrent tfidfCurrent
  let prod := dotProduct tfidfCurrent tfidfAdverse
  let normAdverse := dotProduct tfidfAdverse tfidfAdverse
  if min normCurrent normAdverse = 0 then 0
  else prod / Real.sqrt (normCurrent * normAdverse)

/-- `it.combinations(l, 2)`: every pair `(l[i], l[j])` with `i < j`,
in lexicographic position order. -/
def combinations2 {α : Type} : List α → List (α × α)
  | [] => []
  | x :: xs => xs.map (fun y => (x, y)) ++ combinations2 xs

/-- Assignment `counter[k] = v` on a Counter/dict represented as an
insertion-ordered association list: update the existing entry in place,
or append a fresh one. -/
def counterSet {α V : Type} [DecidableEq α] :
    List (α × V) → α → V → List (α × V)
  | [], k, v => [(k, v)]
  | (k', v') :: rest, k, v =>
      if k' = k then (k, v) :: rest else (k', v') :: counterSet rest k v

/-- Dict lookup on an association list. -/
def alistGet {α V : Type} [DecidableEq α] : List (α × V) → α → Option V
  | [], _ => none
  | (k, v) :: rest, a => if k = a then some v else alistGet rest a

/-- `similarity_matrix[a][b] = v` on the `defaultdict(Counter)`:
the row for `a` is created empty if absent (`defaultdict`), then the
assignment updates key `b` of that Counter. -/
def matrixSet {α V : Type} [DecidableEq α] :
    List (α × List (α × V)) → α → α → V → List (α × List (α × V))
  | [], a, b, v => [(a, counterSet [] b v)]
  | (k, row) :: rest, a, b, v =>
      if k = a then (k, counterSet row b v) :: rest
      else (k, row) :: matrixSet rest a b v

/-- Query `matrix[a][b]` without the `defaultdict` side effect. -/
def matGet {α V : Type} [DecidableEq α] (m : List (α × List (α × V)))
    (a b : α) : Option V :=
  match alistGet m a with
  | none => none
  | some row => alistGet row b

/-- The body of the `build_similarity_matrix` loop for one pair:
compute the cosine (argument order canonicalized elsewhere into `f`)
and record it symmetrically. -/
def simStep {α V : Type} [DecidableEq α] (f : α → α → V)
    (m : List (α × List (α × V))) (p : α × α) : List (α × List (α × V)) :=
  matrixSet (matrixSet m p.1 p.2 (f p.1 p.2)) p.2 p.1 (f p.1 p.2)

/-- The `id(article_current) < id(article_adverse)` argument-order
canonicalization: `ord` is an arbitrary oracle standing for the runtime
identity comparison. -/
noncomputable def cosSel (ord : Article → Article → Bool)
    (tf : Article → List ℝ) (x y : Article) : ℝ :=
  if ord x y then computeCosine (tf x) (tf y) else computeCosine (tf y) (tf x)

/-- `build_similarity_matrix`: fold the symmetric double assignment over
`it.combinations(articles, 2)`, starting from the empty
`defaultdict(Counter)`. `tf` is the `tfidf` attribute of each article. -/
noncomputable def buildSimilarityMatrix (ord : Article → Article → Bool)
    (tf : Article → List ℝ) (articles : List Article) :
    List (Article × List (Article × ℝ)) :=
  (combinations2 articles).foldl (simStep (cosSel ord tf)) []

/-! ### Top-K selection (`add_similar_articles` lines 109-130) -/

/-- Insert one `(article, score)` item into a descending-sorted list,
after every already-placed item whose score is at least as large
(this is the insertion step of a stable descending sort). -/
def insertDesc {α R : Type} [LinearOrder R] (x : α × R) :
    List (α × R) → List (α × R)
  | [] => [x]
  | y :: ys => if y.2 < x.2 then x :: y :: ys else y :: insertDesc x ys

/-- Stable descending sort by score: items are inserted in their
original order, each after all earlier items with an equal score. -/
def sortDesc {α R : Type} [LinearOrder R] (l : List (α × R)) : List (α × R) :=
  l.foldl (fun acc x => insertDesc x acc) []

/-- `Counter.most_common(n)`: the `n` first items of the stable
descending sort of the Counter's items. -/
def mostCommon {α R : Type} [LinearOrder R] (row : List (α × R)) (n : Nat) :
    List (α × R) :=
  (sortDesc row).take n

/-- The `(article_adverse, score)` pairs kept by the final selection:
the `max_count` most common entries of the row whose score is strictly
greater than `min_score`. -/
def selectSimilar {α R : Type} [LinearOrder R] (row : List (α × R))
    (maxCount : Nat) (minScore : R) : List (α × R) :=
  (mostCommon row maxCount).filter (fun p => decide (minScore < p.2))

/-- `most_similar`: the articles of the kept pairs, in order (the source
tuple comprehension yields only `article_adverse`). -/
def mostSimilar {α R : Type} [LinearOrder R] (row : List (α × R))
    (maxCount : Nat) (minScore : R) : List α :=
  (selectSimilar row maxCount minScore).map Prod.fst

/-- `add_similar_articles`, end to end: compute the global idf from the
tag table and the article count, build the similarity matrix over the
attached tfidf vectors, and attach to each article whose selection is
non-empty the tuple of its most similar articles.  The output lists the
`(article, similar_articles)` attachments actually made. -/
noncomputable def addSimilarArticles (ord : Article → Article → Bool)
    (articles : List Article) (tagFreqs : List (String × Nat))
    (maxCount : Nat) (minScore : ℝ) : List (Article × List Article) :=
  let gIdf := globalIdf tagFreqs articles.length
  let matrix := buildSimilarityMatrix ord (tfidfVec gIdf) articles
  (matrix.map (fun p => (p.1, mostSimilar p.2 maxCount minScore))).filter
    (fun p => !p.2.isEmpty)

/-! ### Specification-side definitions -/

/-- Modelled from the spec: the selection policy of §4.3 step 5, in the
spec's own words — sort the row by descending score, keep the first
`max_count` entries, then filter out the entries whose score is at or
below `min_score`. -/
def truncateThenFilter {α R : Type} [LinearOrder R] (row : List (α × R))
    (maxCount : Nat) (minScore : R) : List (α × R) :=
  ((sortDesc row).take maxCount).filter (fun p => !decide (p.2 ≤ minScore))

/-- Scores sorted in (weakly) descending order. -/
def sortedDescBy {α R : Type} [LinearOrder R] (l : List (α × R)) : Prop :=
  l.Pairwise (fun p q => q.2 ≤ p.2)

/-- Scores sorted in strictly descending order. -/
def strictSortedDescBy {α R : Type} [LinearOrder R] (l : List (α × R)) : Prop :=
  l.Pairwise (fun p q => q.2 < p.2)

/-- A fixed article used to instantiate hypotheses of the general
theorems at a concrete input. -/
def artW : Article := ⟨7, ["t"]⟩

/-- A second fixed article, distinct from `artW`. -/
def artX : Article := ⟨8, ["u"]⟩

/-!
### A concrete three-article corpus

The worked example of the development: `artA` carries tags `t, u`,
`artB` carries `t`, `artC` carries `u`, so both tags have document
frequency 2 in a corpus of 3 documents and the two non-zero cosine
scores of `artA`'s row tie exactly.
-/

def artA : Article := ⟨0, ["t", "u"]⟩

def artB : Article := ⟨1, ["t"]⟩

def artC : Article := ⟨2, ["u"]⟩

def exArticles : List Article := [artA, artB, artC]

def exFreqs : List (String × Nat) := [("t", 2), ("u", 2)]

/-- An arbitrary concrete identity-order oracle. -/
def exOrd : Article → Article → Bool := fun _ _ => true

/-- The idf weight shared by both tags of the concrete corpus. -/
noncomputable def exW : ℝ := Real.logb 10 (3 / 2)

/-- The global idf vector of the concrete corpus. -/
noncomputable def exIdf : List (String × ℝ) :=
  globalIdf exFreqs exArticles.length

/-- The tied cosine score of the concrete corpus. -/
noncomputable def exS : ℝ := exW ^ 2 / Real.sqrt ((exW ^ 2 + exW ^ 2) * exW ^ 2)

/-! ### Basic lemmas about the engine arithmetic -/

theorem dotProduct_self_nonneg (v : List ℝ) : 0 ≤ dotProduct v v := by
  induction v with
  | nil => simp [dotProduct]
  | cons x l ih =>
      have h : dotProduct (x :: l) (x :: l) = x * x + dotProduct l l := by
        simp [dotProduct]
      rw [h]
      exact add_nonneg (mul_self_nonneg x) ih

theorem dotProduct_comm (u v : List ℝ) : dotProduct u v = dotProduct v u := by
  unfold dotProduct
  rw [List.zipWith_comm_of_comm (· * ·) mul_comm]

theorem computeCosine_comm (u v : List ℝ) :
    computeCosine u v = computeCosine v u := by
  simp only [computeCosine]
  rw [dotProduct_comm u v, min_comm (dotProduct u u), mul_comm (dotProduct u u)]

theorem cosSel_eq_computeCosine (ord : Article → Article → Bool)
    (tf : Article → List ℝ) (x y : Article) :
    cosSel ord tf x y = computeCosine (tf x) (tf y) := by
  unfold cosSel
  split
  · rfl
  · exact computeCosine_comm (tf y) (tf x)

/-! ### Claim theorems: vectorizer -/

/-- Claim C1: in a run over a corpus containing the document, the tfidf
vector attached to each document has one coordinate per entry of the tag
table, in table order, each coordinate being `log10(|D| / df(tag))` when
the document carries that tag and exactly `0` otherwise. -/
theorem tfidf_coordinate_formula (tagFreqs : List (String × Nat))
    (articles : List Article) (a : Article) (v : List ℝ)
    (hav : (a, v) ∈ addTfidfToArticles articles (globalIdf tagFreqs articles.length)) :
    v.length = tagFreqs.length ∧
      v = tagFreqs.map (fun p =>
        if p.1 ∈ a.tags then Real.logb 10 ((articles.length : ℝ) / (p.2 : ℝ))
        else 0) := by
  obtain ⟨a', -, heq⟩ := List.mem_map.mp hav
  obtain ⟨rfl, rfl⟩ : a' = a ∧ tfidfVec (globalIdf tagFreqs articles.length) a' = v := by
    constructor
    · exact congrArg Prod.fst heq
    · exact congrArg Prod.snd heq
  constructor
  · simp [tfidfVec, globalIdf]
  · simp [tfidfVec, globalIdf, List.map_map, Function.comp_def, mul_one]

theorem tfidf_coordinate_formula_witness :
    (artW, tfidfVec (globalIdf [("t", 1)] [artW].length) artW) ∈
        addTfidfToArticles [artW] (globalIdf [("t", 1)] [artW].length) ∧
      ((tfidfVec (globalIdf [("t", 1)] [artW].length) artW).length =
          ([("t", 1)] : List (String × Nat)).length ∧
        tfidfVec (globalIdf [("t", 1)] [artW].length) artW =
          ([("t", 1)] : List (String × Nat)).map (fun p =>
            if p.1 ∈ artW.tags then
              Real.logb 10 (([artW].length : ℝ) / (p.2 : ℝ))
            else 0)) := by
  have hmem : (artW, tfidfVec (globalIdf [("t", 1)] [artW].length) artW) ∈
      addTfidfToArticles [artW] (globalIdf [("t", 1)] [artW].length) := by
    simp [addTfidfToArticles]
  exact ⟨hmem, tfidf_coordinate_formula [("t", 1)] [artW] artW _ hmem⟩

/-- Claim C10: every tfidf vector produced in one run has the same
length, the length of the global idf vector, so the elementwise product
underlying `dot_product` consumes every coordinate of both vectors and
no length mismatch can occur between vectors built by the vectorizer. -/
theorem tfidf_vectors_uniform_length (articles : List Article)
    (gIdf : List (String × ℝ)) (a : Article) (v : List ℝ)
    (hav : (a, v) ∈ addTfidfToArticles articles gIdf)
    (b : Article) (w : List ℝ)
    (hbw : (b, w) ∈ addTfidfToArticles articles gIdf) :
    v.length = gIdf.length ∧ v.length = w.length ∧
      (List.zipWith (· * ·) v w).length = gIdf.length := by
  have hv : v.length = gIdf.length := by
    obtain ⟨a', -, heq⟩ := List.mem_map.mp hav
    have : tfidfVec gIdf a' = v := congrArg Prod.snd heq
    rw [← this]
    simp [tfidfVec]
  have hw : w.length = gIdf.length := by
    obtain ⟨b', -, heq⟩ := List.mem_map.mp hbw
    have : tfidfVec gIdf b' = w := congrArg Prod.snd heq
    rw [← this]
    simp [tfidfVec]
  refine ⟨hv, hv.trans hw.symm, ?_⟩
  rw [List.length_zipWith, hv, hw, min_self]

theorem tfidf_vectors_uniform_length_witness :
    (artW, tfidfVec [("t", (1 : ℝ))] artW) ∈
        addTfidfToArticles [artW] [("t", (1 : ℝ))] ∧
      ((tfidfVec [("t", (1 : ℝ))] artW).length =
          ([("t", (1 : ℝ))] : List (String × ℝ)).length ∧
        (tfidfVec [("t", (1 : ℝ))] artW).length =
          (tfidfVec [("t", (1 : ℝ))] artW).length ∧
        (List.zipWith (· * ·) (tfidfVec [("t", (1 : ℝ))] artW)
            (tfidfVec [("t", (1 : ℝ))] artW)).length =
          ([("t", (1 : ℝ))] : List (String × ℝ)).length) := by
  have hmem : (artW, tfidfVec [("t", (1 : ℝ))] artW) ∈
      addTfidfToArticles [artW] [("t", (1 : ℝ))] := by
    simp [addTfidfToArticles]
  exact ⟨hmem, tfidf_vectors_uniform_length [artW] _ artW _ hmem artW _ hmem⟩

/-! ### Claim theorems: degenerate cosine -/

/-- Claim C4: if either vector has squared norm `0`, the cosine is `0`
in both argument orders (the division is never taken), so a zero-norm
document has similarity `0` to every other document, including other
zero-norm documents. -/
theorem cosine_zero_norm (u v : List ℝ)
    (h : dotProduct u u = 0 ∨ dotProduct v v = 0) :
    computeCosine u v = 0 ∧ computeCosine v u = 0 := by
  have hmin : min (dotProduct u u) (dotProduct v v) = 0 := by
    rcases h with h0 | h0
    · rw [h0]
      exact min_eq_left (dotProduct_self_nonneg v)
    · rw [h0]
      exact min_eq_right (dotProduct_self_nonneg u)
  have hmin' : min (dotProduct v v) (dotProduct u u) = 0 := by
    rw [min_comm]
    exact hmin
  constructor
  · unfold computeCosine
    rw [if_pos hmin]
  · unfold computeCosine
    rw [if_pos hmin']

theorem cosine_zero_norm_witness :
    (dotProduct [(0 : ℝ)] [(0 : ℝ)] = 0 ∨ dotProduct [(1 : ℝ)] [(1 : ℝ)] = 0) ∧
      (computeCosine [(0 : ℝ)] [(1 : ℝ)] = 0 ∧
        computeCosine [(1 : ℝ)] [(0 : ℝ)] = 0) := by
  have h : dotProduct [(0 : ℝ)] [(0 : ℝ)] = 0 ∨ dotProduct [(1 : ℝ)] [(1 : ℝ)] = 0 := by
    left
    simp [dotProduct]
  exact ⟨h, cosine_zero_norm [(0 : ℝ)] [(1 : ℝ)] h⟩

/-! ### Claim theorems: selection policy -/

/-- Claim C2: the reported selection is the truncate-then-filter policy
of the spec — the row is sorted by descending score, truncated to the
`max_count` best entries, and only then cleaned of the entries at or
below `min_score`. -/
theorem selection_is_truncate_then_filter {α R : Type} [LinearOrder R]
    (row : List (α × R)) (maxCount : Nat) (minScore : R) :
    selectSimilar row maxCount minScore =
      truncateThenFilter row maxCount minScore := by
  unfold selectSimilar truncateThenFilter mostCommon
  refine List.filter_congr ?_
  intro p _
  rw [← decide_not, decide_eq_decide]
  exact not_le.symm

/-! ### Lemmas about the stable descending sort -/

theorem mem_insertDesc {α R : Type} [LinearOrder R] (x z : α × R)
    (l : List (α × R)) (h : z ∈ insertDesc x l) : z = x ∨ z ∈ l := by
  induction l with
  | nil =>
      simp only [insertDesc, List.mem_singleton] at h
      exact Or.inl h
  | cons y ys ih =>
      by_cases hc : y.2 < x.2
      · simp only [insertDesc, if_pos hc] at h
        rcases List.mem_cons.mp h with h1 | h1
        · exact Or.inl h1
        · exact Or.inr h1
      · simp only [insertDesc, if_neg hc] at h
        rcases List.mem_cons.mp h with h1 | h1
        · exact Or.inr (h1 ▸ List.mem_cons_self y ys)
        · rcases ih h1 with h2 | h2
          · exact Or.inl h2
          · exact Or.inr (List.mem_cons_of_mem y h2)

theorem sortedDescBy_insertDesc {α R : Type} [LinearOrder R] (x : α × R)
    (l : List (α × R)) (h : sortedDescBy l) : sortedDescBy (insertDesc x l) := by
  induction l with
  | nil => simp [insertDesc, sortedDescBy]
  | cons y ys ih =>
      rw [sortedDescBy, List.pairwise_cons] at h
      obtain ⟨hy, hys⟩ := h
      by_cases hc : y.2 < x.2
      · rw [sortedDescBy]
        simp only [insertDesc, if_pos hc]
        rw [List.pairwise_cons]
        constructor
        · intro z hz
          rcases List.mem_cons.mp hz with rfl | hz'
          · exact le_of_lt hc
          · exact le_trans (hy z hz') (le_of_lt hc)
        · rw [List.pairwise_cons]
          exact ⟨hy, hys⟩
      · rw [sortedDescBy]
        simp only [insertDesc, if_neg hc]
        rw [List.pairwise_cons]
        constructor
        · intro z hz
          rcases mem_insertDesc x z ys hz with rfl | hz'
          · exact not_lt.mp hc
          · exact hy z hz'
        · exact ih hys

theorem sortDesc_foldl_sorted {α R : Type} [LinearOrder R]
    (l acc : List (α × R)) (h : sortedDescBy acc) :
    sortedDescBy (l.foldl (fun acc x => insertDesc x acc) acc) := by
  induction l generalizing acc with
  | nil => simpa using h
  | cons x xs ih => exact ih _ (sortedDescBy_insertDesc x acc h)

theorem sortDesc_sorted {α R : Type} [LinearOrder R] (l : List (α × R)) :
    sortedDescBy (sortDesc l) :=
  sortDesc_foldl_sorted l [] (by simp [sortedDescBy])

theorem selectSimilar_sublist_sortDesc {α R : Type} [LinearOrder R]
    (row : List (α × R)) (maxCount : Nat) (minScore : R) :
    (selectSimilar row maxCount minScore).Sublist (sortDesc row) :=
  (List.filter_sublist _).trans (List.take_sublist _ _)

/-- Claim C5 (amended): the selection has at most `max_count` entries,
its scores are sorted in descending (non-increasing, ties allowed)
order, and every kept score is strictly greater than `min_score`. -/
theorem topk_contract {α R : Type} [LinearOrder R] (row : List (α × R))
    (maxCount : Nat) (minScore : R) :
    (selectSimilar row maxCount minScore).length ≤ maxCount ∧
      sortedDescBy (selectSimilar row maxCount minScore) ∧
      ∀ p ∈ selectSimilar row maxCount minScore, minScore < p.2 := by
  refine ⟨?_, ?_, ?_⟩
  · calc (selectSimilar row maxCount minScore).length
        ≤ (mostCommon row maxCount).length := List.length_filter_le _ _
      _ ≤ maxCount := by
          rw [mostCommon, List.length_take]
          exact min_le_left _ _
  · exact List.Pairwise.sublist (selectSimilar_sublist_sortDesc row maxCount minScore)
      (sortDesc_sorted row)
  · intro p hp
    rw [selectSimilar] at hp
    exact of_decide_eq_true (List.mem_filter.mp hp).2

theorem topk_contract_witness :
    (selectSimilar [(artW, (5 : ℤ))] 2 0).length ≤ 2 ∧
      sortedDescBy (selectSimilar [(artW, (5 : ℤ))] 2 0) ∧
      ∀ p ∈ selectSimilar [(artW, (5 : ℤ))] 2 0, (0 : ℤ) < p.2 :=
  topk_contract [(artW, (5 : ℤ))] 2 0

/-- Claim C8: the per-document similarity result is a sequence of
`(article, score)` pairs sorted by descending score, and the attached
tuple of similar articles is exactly its article projection, in that
order. -/
theorem similarity_result_sorted {α R : Type} [LinearOrder R]
    (row : List (α × R)) (maxCount : Nat) (minScore : R) :
    sortedDescBy (selectSimilar row maxCount minScore) ∧
      mostSimilar row maxCount minScore =
        (selectSimilar row maxCount minScore).map Prod.fst :=
  ⟨List.Pairwise.sublist (selectSimilar_sublist_sortDesc row maxCount minScore)
      (sortDesc_sorted row), rfl⟩

/-! ### Cosine bounds -/

theorem dotProduct_nonneg (u v : List ℝ) (hu : ∀ x ∈ u, 0 ≤ x)
    (hv : ∀ x ∈ v, 0 ≤ x) : 0 ≤ dotProduct u v := by
  induction u generalizing v with
  | nil => simp [dotProduct]
  | cons a u' ih =>
      cases v with
      | nil => simp [dotProduct]
      | cons b v' =>
          have h : dotProduct (a :: u') (b :: v') = a * b + dotProduct u' v' := by
            simp [dotProduct]
          rw [h]
          refine add_nonneg (mul_nonneg (hu a (List.mem_cons_self a u'))
            (hv b (List.mem_cons_self b v'))) ?_
          exact ih v' (fun x hx => hu x (List.mem_cons_of_mem a hx))
            (fun x hx => hv x (List.mem_cons_of_mem b hx))

/-- The Cauchy-Schwarz inequality for the truncating list dot product. -/
theorem dotProduct_sq_le (u v : List ℝ) :
    dotProduct u v ^ 2 ≤ dotProduct u u * dotProduct v v := by
  induction u generalizing v with
  | nil => simp [dotProduct]
  | cons a u' ih =>
      cases v with
      | nil => simp [dotProduct]
      | cons b v' =>
          have h1 : dotProduct (a :: u') (b :: v') = a * b + dotProduct u' v' := by
            simp [dotProduct]
          have h2 : dotProduct (a :: u') (a :: u') = a * a + dotProduct u' u' := by
            simp [dotProduct]
          have h3 : dotProduct (b :: v') (b :: v') = b * b + dotProduct v' v' := by
            simp [dotProduct]
          rw [h1, h2, h3]
          have hIH := ih v'
          have hnu := dotProduct_self_nonneg u'
          have hnv := dotProduct_self_nonneg v'
          set d := dotProduct u' v' with hd
          set nu := dotProduct u' u' with hnu'
          set nv := dotProduct v' v' with hnv'
          rcases eq_or_lt_of_le hnu with hnu0 | hnu0
          · have hd2 : d ^ 2 ≤ 0 := by
              calc d ^ 2 ≤ nu * nv := hIH
                _ = 0 := by rw [← hnu0, zero_mul]
            have hdz : d = 0 := by
              have hge := sq_nonneg d
              have : d ^ 2 = 0 := le_antisymm hd2 hge
              exact (pow_eq_zero_iff (by norm_num : (2 : ℕ) ≠ 0)).mp this
            rw [hdz, ← hnu0]
            nlinarith [mul_nonneg (mul_self_nonneg a) hnv]
          · nlinarith [sq_nonneg (a * d - b * nu),
              mul_nonneg (le_of_lt hnu0) (sub_nonneg.mpr hIH),
              mul_nonneg (mul_self_nonneg a) (sub_nonneg.mpr hIH)]

theorem cosine_bounds_of_nonneg (u v : List ℝ) (hu : ∀ x ∈ u, 0 ≤ x)
    (hv : ∀ x ∈ v, 0 ≤ x) :
    0 ≤ computeCosine u v ∧ computeCosine u v ≤ 1 := by
  simp only [computeCosine]
  by_cases h0 : min (dotProduct u u) (dotProduct v v) = 0
  · rw [if_pos h0]
    exact ⟨le_refl 0, zero_le_one⟩
  · rw [if_neg h0]
    have hnu : 0 < dotProduct u u := by
      rcases lt_or_eq_of_le (dotProduct_self_nonneg u) with h | h
      · exact h
      · exact absurd (by rw [← h]; exact min_eq_left (dotProduct_self_nonneg v)) h0
    have hnv : 0 < dotProduct v v := by
      rcases lt_or_eq_of_le (dotProduct_self_nonneg v) with h | h
      · exact h
      · exact absurd (by rw [← h]; exact min_eq_right (dotProduct_self_nonneg u)) h0
    have hp : 0 ≤ dotProduct u v := dotProduct_nonneg u v hu hv
    have hs : 0 < Real.sqrt (dotProduct u u * dotProduct v v) :=
      Real.sqrt_pos.mpr (mul_pos hnu hnv)
    constructor
    · exact div_nonneg hp (le_of_lt hs)
    · rw [div_le_one hs]
      exact (Real.le_sqrt hp (mul_nonneg hnu.le hnv.le)).mpr (dotProduct_sq_le u v)

theorem tfidfVec_entry_nonneg (gIdf : List (String × ℝ)) (a : Article)
    (hg : ∀ p ∈ gIdf, 0 ≤ p.2) : ∀ x ∈ tfidfVec gIdf a, 0 ≤ x := by
  intro x hx
  obtain ⟨p, hp, rfl⟩ := List.mem_map.mp hx
  by_cases hc : p.1 ∈ a.tags
  · rw [if_pos hc, mul_one]
    exact hg p hp
  · rw [if_neg hc]

/-- Claim C6: the cosine similarity of two tfidf vectors built from
non-negative idf weights and binary tag presence lies in `[0, 1]`. -/
theorem cosine_unit_interval (gIdf : List (String × ℝ)) (a b : Article)
    (hg : ∀ p ∈ gIdf, 0 ≤ p.2) :
    0 ≤ computeCosine (tfidfVec gIdf a) (tfidfVec gIdf b) ∧
      computeCosine (tfidfVec gIdf a) (tfidfVec gIdf b) ≤ 1 :=
  cosine_bounds_of_nonneg _ _ (tfidfVec_entry_nonneg gIdf a hg)
    (tfidfVec_entry_nonneg gIdf b hg)

theorem cosine_unit_interval_witness :
    (∀ p ∈ ([("t", (1 : ℝ))] : List (String × ℝ)), 0 ≤ p.2) ∧
      (0 ≤ computeCosine (tfidfVec [("t", (1 : ℝ))] artW)
          (tfidfVec [("t", (1 : ℝ))] ⟨8, ["u"]⟩) ∧
        computeCosine (tfidfVec [("t", (1 : ℝ))] artW)
          (tfidfVec [("t", (1 : ℝ))] ⟨8, ["u"]⟩) ≤ 1) := by
  have hg : ∀ p ∈ ([("t", (1 : ℝ))] : List (String × ℝ)), 0 ≤ p.2 := by
    intro p hp
    rw [List.mem_singleton.mp hp]
    norm_num
  exact ⟨hg, cosine_unit_interval [("t", 1)] artW ⟨8, ["u"]⟩ hg⟩

/-! ### Lemmas about the dict-of-Counter similarity matrix -/

theorem alistGet_counterSet_self {α V : Type} [DecidableEq α]
    (l : List (α × V)) (k : α) (v : V) :
    alistGet (counterSet l k v) k = some v := by
  induction l with
  | nil => simp [counterSet, alistGet]
  | cons e rest ih =>
      obtain ⟨k', v'⟩ := e
      by_cases h : k' = k
      · simp [counterSet, if_pos h, alistGet]
      · simp [counterSet, if_neg h, alistGet, h, ih]

theorem alistGet_counterSet_ne {α V : Type} [DecidableEq α]
    (l : List (α × V)) (k k' : α) (v : V) (h : k' ≠ k) :
    alistGet (counterSet l k v) k' = alistGet l k' := by
  induction l with
  | nil => simp [counterSet, alistGet, Ne.symm h]
  | cons e rest ih =>
      obtain ⟨k₀, v₀⟩ := e
      by_cases h0 : k₀ = k
      · subst h0
        simp [counterSet, alistGet, Ne.symm h]
      · simp [counterSet, h0, alistGet, ih]

theorem alistGet_matrixSet_ne {α V : Type} [DecidableEq α]
    (m : List (α × List (α × V))) (a b p : α) (v : V) (h : p ≠ a) :
    alistGet (matrixSet m a b v) p = alistGet m p := by
  induction m with
  | nil => simp [matrixSet, alistGet, Ne.symm h]
  | cons e rest ih =>
      obtain ⟨k, row⟩ := e
      by_cases hk : k = a
      · subst hk
        simp [matrixSet, alistGet, Ne.symm h]
      · simp [matrixSet, hk, alistGet, ih]

theorem alistGet_matrixSet_self {α V : Type} [DecidableEq α]
    (m : List (α × List (α × V))) (a b : α) (v : V) :
    alistGet (matrixSet m a b v) a =
      some (counterSet ((alistGet m a).getD []) b v) := by
  induction m with
  | nil => simp [matrixSet, alistGet]
  | cons e rest ih =>
      obtain ⟨k, row⟩ := e
      by_cases hk : k = a
      · subst hk
        simp [matrixSet, alistGet]
      · simp [matrixSet, hk, alistGet, ih]

theorem matGet_matrixSet_self {α V : Type} [DecidableEq α]
    (m : List (α × List (α × V))) (a b : α) (v : V) :
    matGet (matrixSet m a b v) a b = some v := by
  unfold matGet
  rw [alistGet_matrixSet_self]
  exact alistGet_counterSet_self _ b v

theorem matGet_matrixSet_ne {α V : Type} [DecidableEq α]
    (m : List (α × List (α × V))) (a b p q : α) (v : V)
    (h : p ≠ a ∨ q ≠ b) :
    matGet (matrixSet m a b v) p q = matGet m p q := by
  by_cases hp : p = a
  · subst hp
    have hq : q ≠ b := by
      rcases h with h | h
      · exact absurd rfl h
      · exact h
    unfold matGet
    rw [alistGet_matrixSet_self]
    show alistGet (counterSet ((alistGet m p).getD []) b v) q =
      match alistGet m p with
      | none => none
      | some row => alistGet row q
    rw [alistGet_counterSet_ne _ b q v hq]
    cases hm : alistGet m p
    · simp [alistGet]
    · simp
  · unfold matGet
    rw [alistGet_matrixSet_ne m a b p v hp]

theorem pair_ne_components {α : Type} {p q x y : α} (h : (p, q) ≠ (x, y)) :
    p ≠ x ∨ q ≠ y := by
  by_cases hp : p = x
  · right
    intro hq
    exact h (by rw [hp, hq])
  · left
    exact hp

theorem pair_swap_ne {α : Type} {x y A B : α} (h : (x, y) ≠ (B, A)) :
    (A, B) ≠ (y, x) := by
  intro hc
  have h1 : A = y := congrArg Prod.fst hc
  have h2 : B = x := congrArg Prod.snd hc
  exact h (by rw [h1, h2])

theorem matGet_simStep_hit₁ {α V : Type} [DecidableEq α] (f : α → α → V)
    (m : List (α × List (α × V))) (x y : α) (hxy : x ≠ y) :
    matGet (simStep f m (x, y)) x y = some (f x y) := by
  unfold simStep
  rw [matGet_matrixSet_ne _ y x x y _ (Or.inl hxy)]
  exact matGet_matrixSet_self _ x y _

theorem matGet_simStep_hit₂ {α V : Type} [DecidableEq α] (f : α → α → V)
    (m : List (α × List (α × V))) (x y : α) :
    matGet (simStep f m (x, y)) y x = some (f x y) :=
  matGet_matrixSet_self _ y x _

theorem matGet_simStep_other {α V : Type} [DecidableEq α] (f : α → α → V)
    (m : List (α × List (α × V))) (x y p q : α)
    (h1 : (p, q) ≠ (x, y)) (h2 : (p, q) ≠ (y, x)) :
    matGet (simStep f m (x, y)) p q = matGet m p q := by
  unfold simStep
  rw [matGet_matrixSet_ne _ y x p q _ (pair_ne_components h2),
    matGet_matrixSet_ne _ x y p q _ (pair_ne_components h1)]

theorem matGet_foldl_untouched {α V : Type} [DecidableEq α] (f : α → α → V)
    (A B : α) (ps : List (α × α)) (m : List (α × List (α × V)))
    (h : ∀ pr ∈ ps, pr ≠ (A, B) ∧ pr ≠ (B, A)) :
    matGet (ps.foldl (simStep f) m) A B = matGet m A B := by
  induction ps generalizing m with
  | nil => rfl
  | cons pr rest ih =>
      obtain ⟨x, y⟩ := pr
      have hpr := h (x, y) (List.mem_cons_self _ _)
      rw [List.foldl_cons,
        ih _ (fun pr hm => h pr (List.mem_cons_of_mem _ hm))]
      exact matGet_simStep_other f m x y A B (Ne.symm hpr.1) (pair_swap_ne hpr.2)

theorem matGet_foldl_pairing {α V : Type} [DecidableEq α] (f : α → α → V)
    (x B : α) (xs : List α) (m : List (α × List (α × V)))
    (hx : x ∉ xs) (hnd : xs.Nodup) (hB : B ∈ xs) :
    matGet ((xs.map (fun y => (x, y))).foldl (simStep f) m) x B =
        some (f x B) ∧
      matGet ((xs.map (fun y => (x, y))).foldl (simStep f) m) B x =
        some (f x B) := by
  induction xs generalizing m with
  | nil => cases hB
  | cons y ys ih =>
      have hxy : x ≠ y := fun hc => hx (hc ▸ List.mem_cons_self y ys)
      rw [List.map_cons, List.foldl_cons]
      by_cases hyB : y = B
      · subst hyB
        have huntouched : ∀ pr ∈ ys.map (fun z => (x, z)),
            pr ≠ (x, y) ∧ pr ≠ (y, x) := by
          intro pr hpr
          obtain ⟨z, hz, rfl⟩ := List.mem_map.mp hpr
          constructor
          · intro hc
            have hzy : z = y := congrArg Prod.snd hc
            exact (List.nodup_cons.mp hnd).1 (hzy ▸ hz)
          · intro hc
            exact hxy (congrArg Prod.fst hc)
        constructor
        · rw [matGet_foldl_untouched f x y _ _ huntouched]
          exact matGet_simStep_hit₁ f m x y hxy
        · rw [matGet_foldl_untouched f y x _ _
            (fun pr hpr => ⟨(huntouched pr hpr).2, (huntouched pr hpr).1⟩)]
          exact matGet_simStep_hit₂ f m x y
      · have hB' : B ∈ ys := by
          rcases List.mem_cons.mp hB with h | h
          · exact absurd h.symm hyB
          · exact h
        have hx' : x ∉ ys := fun hc => hx (List.mem_cons_of_mem y hc)
        exact ih (simStep f m (x, y)) hx' (List.nodup_cons.mp hnd).2 hB'

theorem mem_combinations2 {α : Type} (l : List α) (pr : α × α)
    (h : pr ∈ combinations2 l) : pr.1 ∈ l ∧ pr.2 ∈ l := by
  induction l with
  | nil => cases h
  | cons x xs ih =>
      rw [combinations2] at h
      rcases List.mem_append.mp h with h1 | h1
      · obtain ⟨y, hy, rfl⟩ := List.mem_map.mp h1
        exact ⟨List.mem_cons_self x xs, List.mem_cons_of_mem x hy⟩
      · obtain ⟨h2, h3⟩ := ih h1
        exact ⟨List.mem_cons_of_mem x h2, List.mem_cons_of_mem x h3⟩

/-- The key invariant of `build_similarity_matrix`: over a
duplicate-free article list, the entry for any ordered pair of distinct
articles from the list is exactly the (symmetric) pair value. -/
theorem matGet_build_entry {α V : Type} [DecidableEq α] (f : α → α → V)
    (hf : ∀ x y, f x y = f y x) (A B : α) (l : List α)
    (m : List (α × List (α × V))) (hnd : l.Nodup) (hA : A ∈ l) (hB : B ∈ l)
    (hAB : A ≠ B) :
    matGet ((combinations2 l).foldl (simStep f) m) A B = some (f A B) := by
  induction l generalizing m with
  | nil => cases hA
  | cons x xs ih =>
      rw [combinations2, List.foldl_append]
      have hx : x ∉ xs := (List.nodup_cons.mp hnd).1
      have hnd' : xs.Nodup := (List.nodup_cons.mp hnd).2
      rcases List.mem_cons.mp hA with rfl | hA'
      · have hB' : B ∈ xs := by
          rcases List.mem_cons.mp hB with h | h
          · exact absurd h (Ne.symm hAB)
          · exact h
        have hun : ∀ pr ∈ combinations2 xs, pr ≠ (A, B) ∧ pr ≠ (B, A) := by
          intro pr hpr
          obtain ⟨h1, h2⟩ := mem_combinations2 xs pr hpr
          constructor
          · intro hc
            rw [hc] at h1
            exact hx h1
          · intro hc
            rw [hc] at h2
            exact hx h2
        rw [matGet_foldl_untouched f A B _ _ hun]
        exact (matGet_foldl_pairing f A B xs m hx hnd' hB').1
      · rcases List.mem_cons.mp hB with rfl | hB'
        · have hun : ∀ pr ∈ combinations2 xs, pr ≠ (A, B) ∧ pr ≠ (B, A) := by
            intro pr hpr
            obtain ⟨h1, h2⟩ := mem_combinations2 xs pr hpr
            constructor
            · intro hc
              rw [hc] at h2
              exact hx h2
            · intro hc
              rw [hc] at h1
              exact hx h1
          rw [matGet_foldl_untouched f A B _ _ hun,
            (matGet_foldl_pairing f B A xs m hx hnd' hA').2, hf B A]
        · exact ih _ hnd' hA' hB'

/-! ### Claim theorems: matrix symmetry -/

/-- Claim C3: over a duplicate-free corpus, the similarity matrix built
by the fold records, for every ordered pair of distinct articles of the
corpus, the same cosine value in both mirror entries, and both entries
are present (queries return `some`). -/
theorem similarity_matrix_symmetric (ord : Article → Article → Bool)
    (tf : Article → List ℝ) (articles : List Article) (A B : Article)
    (hnd : articles.Nodup) (hA : A ∈ articles) (hB : B ∈ articles)
    (hAB : A ≠ B) :
    matGet (buildSimilarityMatrix ord tf articles) A B =
        some (computeCosine (tf A) (tf B)) ∧
      matGet (buildSimilarityMatrix ord tf articles) B A =
        some (computeCosine (tf A) (tf B)) := by
  have hf : ∀ x y, cosSel ord tf x y = cosSel ord tf y x := by
    intro x y
    rw [cosSel_eq_computeCosine, cosSel_eq_computeCosine]
    exact computeCosine_comm _ _
  unfold buildSimilarityMatrix
  constructor
  · rw [matGet_build_entry (cosSel ord tf) hf A B articles [] hnd hA hB hAB,
      cosSel_eq_computeCosine]
  · rw [matGet_build_entry (cosSel ord tf) hf B A articles [] hnd hB hA
      (Ne.symm hAB), cosSel_eq_computeCosine, computeCosine_comm (tf B)]

theorem similarity_matrix_symmetric_witness :
    ([artW, artX].Nodup ∧ artW ∈ [artW, artX] ∧ artX ∈ [artW, artX] ∧
        artW ≠ artX) ∧
      (matGet (buildSimilarityMatrix (fun _ _ => true) (fun _ => [1])
            [artW, artX]) artW artX =
          some (computeCosine [(1 : ℝ)] [(1 : ℝ)]) ∧
        matGet (buildSimilarityMatrix (fun _ _ => true) (fun _ => [1])
            [artW, artX]) artX artW =
          some (computeCosine [(1 : ℝ)] [(1 : ℝ)])) := by
  refine ⟨⟨by decide, by decide, by decide, by decide⟩, ?_⟩
  exact similarity_matrix_symmetric (fun _ _ => true) (fun _ => [1])
    [artW, artX] artW artX (by decide) (by decide) (by decide) (by decide)

/-! ### Claim theorems: determinism -/

/-- Claim C9: the whole computation is a pure function of the corpus and
the configuration; in particular its output does not depend on the
object-identity ordering used to canonicalize the cosine cache keys, so
two runs over an identical corpus and configuration attach identical
similar-article lists. -/
theorem pipeline_deterministic (ord₁ ord₂ : Article → Article → Bool)
    (articles : List Article) (tagFreqs : List (String × Nat))
    (maxCount : Nat) (minScore : ℝ) :
    addSimilarArticles ord₁ articles tagFreqs maxCount minScore =
      addSimilarArticles ord₂ articles tagFreqs maxCount minScore := by
  simp only [addSimilarArticles, buildSimilarityMatrix]
  have h : ∀ ord : Article → Article → Bool,
      cosSel ord (tfidfVec (globalIdf tagFreqs articles.length)) =
        fun x y => computeCosine (tfidfVec (globalIdf tagFreqs articles.length) x)
          (tfidfVec (globalIdf tagFreqs articles.length) y) := by
    intro ord
    funext x y
    exact cosSel_eq_computeCosine ord _ x y
  rw [h ord₁, h ord₂]

/-! ### Evaluation of the concrete three-article corpus -/

theorem exW_pos : 0 < exW :=
  Real.logb_pos (by norm_num) (by norm_num)

theorem exIdf_eq : exIdf = [("t", exW), ("u", exW)] := by
  unfold exIdf globalIdf exFreqs exArticles exW
  norm_num

theorem tfA_eq : tfidfVec exIdf artA = [exW, exW] := by
  rw [exIdf_eq]
  have h1 : ("t" : String) ∈ artA.tags := by decide
  have h2 : ("u" : String) ∈ artA.tags := by decide
  simp [tfidfVec, h1, h2]

theorem tfB_eq : tfidfVec exIdf artB = [exW, 0] := by
  rw [exIdf_eq]
  have h1 : ("t" : String) ∈ artB.tags := by decide
  have h2 : ("u" : String) ∉ artB.tags := by decide
  simp [tfidfVec, h1, h2]

theorem tfC_eq : tfidfVec exIdf artC = [0, exW] := by
  rw [exIdf_eq]
  have h1 : ("t" : String) ∉ artC.tags := by decide
  have h2 : ("u" : String) ∈ artC.tags := by decide
  simp [tfidfVec, h1, h2]

theorem cos_ww_w0 (w : ℝ) (hw : 0 < w) :
    computeCosine [w, w] [w, 0] =
      w ^ 2 / Real.sqrt ((w ^ 2 + w ^ 2) * w ^ 2) := by
  simp only [computeCosine, dotProduct, List.zipWith_cons_cons,
    List.zipWith_nil_right, List.sum_cons, List.sum_nil]
  have e1 : w * w + (w * w + 0) = w ^ 2 + w ^ 2 := by ring
  have e2 : w * w + (w * 0 + 0) = w ^ 2 := by ring
  have e3 : w * w + (0 * 0 + 0) = w ^ 2 := by ring
  rw [e1, e2, e3]
  have h2 : 0 < w ^ 2 := pow_pos hw 2
  rw [if_neg (ne_of_gt (lt_min (by linarith) h2))]

theorem cos_ww_0w (w : ℝ) (hw : 0 < w) :
    computeCosine [w, w] [0, w] =
      w ^ 2 / Real.sqrt ((w ^ 2 + w ^ 2) * w ^ 2) := by
  simp only [computeCosine, dotProduct, List.zipWith_cons_cons,
    List.zipWith_nil_right, List.sum_cons, List.sum_nil]
  have e1 : w * w + (w * w + 0) = w ^ 2 + w ^ 2 := by ring
  have e2 : w * 0 + (w * w + 0) = w ^ 2 := by ring
  have e3 : 0 * 0 + (w * w + 0) = w ^ 2 := by ring
  rw [e1, e2, e3]
  have h2 : 0 < w ^ 2 := pow_pos hw 2
  rw [if_neg (ne_of_gt (lt_min (by linarith) h2))]

theorem cos_w0_0w (w : ℝ) : computeCosine [w, 0] [0, w] = 0 := by
  simp only [computeCosine, dotProduct, List.zipWith_cons_cons,
    List.zipWith_nil_right, List.sum_cons, List.sum_nil]
  have e : w * 0 + (0 * w + 0) = 0 := by ring
  rw [e]
  split
  · rfl
  · exact zero_div _

theorem exCosAB : computeCosine (tfidfVec exIdf artA) (tfidfVec exIdf artB) =
    exS := by
  rw [tfA_eq, tfB_eq, cos_ww_w0 exW exW_pos, exS]

theorem exCosAC : computeCosine (tfidfVec exIdf artA) (tfidfVec exIdf artC) =
    exS := by
  rw [tfA_eq, tfC_eq, cos_ww_0w exW exW_pos, exS]

theorem exCosBC : computeCosine (tfidfVec exIdf artB) (tfidfVec exIdf artC) =
    0 := by
  rw [tfB_eq, tfC_eq, cos_w0_0w exW]

theorem exS_pos : 0 < exS := by
  unfold exS
  have h2 : 0 < exW ^ 2 := pow_pos exW_pos 2
  exact div_pos h2 (Real.sqrt_pos.mpr (mul_pos (by linarith) h2))

theorem exMatrix_eq :
    buildSimilarityMatrix exOrd (tfidfVec exIdf) exArticles =
      [(artA, [(artB, exS), (artC, exS)]),
        (artB, [(artA, exS), (artC, 0)]),
        (artC, [(artA, exS), (artB, 0)])] := by
  have hAB : ¬ (artA = artB) := by decide
  have hAC : ¬ (artA = artC) := by decide
  have hBC : ¬ (artB = artC) := by decide
  have hBA : ¬ (artB = artA) := by decide
  have hCA : ¬ (artC = artA) := by decide
  have hCB : ¬ (artC = artB) := by decide
  unfold buildSimilarityMatrix exArticles
  simp only [combinations2, List.map_cons, List.map_nil, List.append_nil,
    List.nil_append, List.cons_append, List.foldl_cons, List.foldl_nil,
    simStep, cosSel, exOrd, if_true, matrixSet, counterSet, hAB, hAC, hBC,
    hBA, hCA, hCB, if_false, ite_false, ite_true, exCosAB, exCosAC, exCosBC]

theorem exRowA :
    (alistGet (buildSimilarityMatrix exOrd (tfidfVec exIdf) exArticles)
        artA).getD [] = [(artB, exS), (artC, exS)] := by
  rw [exMatrix_eq]
  simp [alistGet]

theorem exSelectA : selectSimilar [(artB, exS), (artC, exS)] 2 0 =
    [(artB, exS), (artC, exS)] := by
  have hsort : sortDesc [(artB, exS), (artC, exS)] =
      [(artB, exS), (artC, exS)] := by
    unfold sortDesc
    simp only [List.foldl_cons, List.foldl_nil, insertDesc,
      lt_self_iff_false, if_false, ite_false]
  have hd : decide ((0 : ℝ) < exS) = true := decide_eq_true exS_pos
  have htake : List.take 2 [(artB, exS), (artC, exS)] =
      [(artB, exS), (artC, exS)] := rfl
  simp only [selectSimilar, mostCommon, hsort, htake, List.filter_cons,
    List.filter_nil, hd, if_true, ite_true]

theorem exSelect_pair (x y : Article) :
    selectSimilar [(x, exS), (y, (0 : ℝ))] 2 0 = [(x, exS)] := by
  have hng : ¬ (exS < (0 : ℝ)) := not_lt.mpr exS_pos.le
  have hsort : sortDesc [(x, exS), (y, (0 : ℝ))] = [(x, exS), (y, 0)] := by
    unfold sortDesc
    simp only [List.foldl_cons, List.foldl_nil, insertDesc, hng, if_false,
      ite_false]
  have hd : decide ((0 : ℝ) < exS) = true := decide_eq_true exS_pos
  have hd0 : decide ((0 : ℝ) < (0 : ℝ)) = false := by simp
  have htake : List.take 2 [(x, exS), (y, (0 : ℝ))] = [(x, exS), (y, 0)] := rfl
  simp only [selectSimilar, mostCommon, hsort, htake, List.filter_cons,
    List.filter_nil, hd, hd0, if_true, ite_true, Bool.false_eq_true,
    if_false, ite_false]

theorem exRun_eq : addSimilarArticles exOrd exArticles exFreqs 2 0 =
    [(artA, [artB, artC]), (artB, [artA]), (artC, [artA])] := by
  have hm : buildSimilarityMatrix exOrd
      (tfidfVec (globalIdf exFreqs exArticles.length)) exArticles =
        [(artA, [(artB, exS), (artC, exS)]),
          (artB, [(artA, exS), (artC, 0)]),
          (artC, [(artA, exS), (artB, 0)])] := exMatrix_eq
  simp only [addSimilarArticles, hm, List.map_cons, List.map_nil,
    mostSimilar, exSelectA, exSelect_pair, List.filter_cons, List.filter_nil,
    List.isEmpty_cons, Bool.not_false, if_true, ite_true]

/-- Claim C5 is refuted on the concrete corpus: the similarity result of
`artA` keeps two candidates with exactly equal scores, so it is not
sorted by strictly descending score. -/
theorem topk_strict_cex :
    ¬ strictSortedDescBy (selectSimilar
        ((alistGet (buildSimilarityMatrix exOrd (tfidfVec exIdf) exArticles)
            artA).getD [])
        2 0) := by
  rw [exRowA, exSelectA]
  intro h
  rw [strictSortedDescBy, List.pairwise_cons] at h
  exact lt_irrefl exS (h.1 (artC, exS) (List.mem_cons_self _ _))

/-! ### Claim theorems: attachment policy -/

/-- Claim C7: every attachment made by the pipeline carries a non-empty
similar-articles list — a document whose selection is empty receives no
attribute at all — and every attached list is the selection computed
from one of that document's matrix rows. -/
theorem attach_only_nonempty (ord : Article → Article → Bool)
    (articles : List Article) (tagFreqs : List (String × Nat))
    (maxCount : Nat) (minScore : ℝ) (a : Article) (sims : List Article)
    (h : (a, sims) ∈ addSimilarArticles ord articles tagFreqs maxCount minScore) :
    sims ≠ [] ∧
      ∃ row, (a, row) ∈ buildSimilarityMatrix ord
          (tfidfVec (globalIdf tagFreqs articles.length)) articles ∧
        sims = mostSimilar row maxCount minScore := by
  simp only [addSimilarArticles] at h
  obtain ⟨hmem, hpred⟩ := List.mem_filter.mp h
  obtain ⟨⟨a', row⟩, hq, heq⟩ := List.mem_map.mp hmem
  have ha : a' = a := congrArg Prod.fst heq
  have hs : mostSimilar row maxCount minScore = sims := congrArg Prod.snd heq
  subst ha
  constructor
  · intro hnil
    rw [hnil] at hpred
    simp at hpred
  · exact ⟨row, hq, hs.symm⟩

theorem attach_only_nonempty_witness :
    (artA, [artB, artC]) ∈ addSimilarArticles exOrd exArticles exFreqs 2 0 ∧
      ([artB, artC] ≠ [] ∧
        ∃ row, (artA, row) ∈ buildSimilarityMatrix exOrd
            (tfidfVec (globalIdf exFreqs exArticles.length)) exArticles ∧
          [artB, artC] = mostSimilar row 2 0) := by
  have hmem : (artA, [artB, artC]) ∈
      addSimilarArticles exOrd exArticles exFreqs 2 0 := by
    rw [exRun_eq]
    exact List.mem_cons_self _ _
  exact ⟨hmem,
    attach_only_nonempty exOrd exArticles exFreqs 2 0 artA [artB, artC] hmem⟩

end SimilarArticles
